import Mathlib

set_option maxHeartbeats 1000000

/-!
Shallow embedding of the PSA turnaround calculator of `src/app.py`.

Dates are modelled as ordinal day numbers (`Nat`), with the convention that
day 0 falls on a Monday, so that `d % 7` agrees with Python's
`date.weekday()` (Monday = 0, ..., Saturday = 5, Sunday = 6).  Adding `n`
to a date adds `n` calendar days, matching `datetime.timedelta(days=n)`.

The third-party Japanese holiday predicate `jpholiday.is_holiday` is a pure
lookup into a fixed national holiday dataset; it is modelled here as
membership in a finite list `hs : List Nat` of holiday dates over which all
theorems are universally quantified.
-/

/-- Python `date.weekday()`: day-of-week index, Monday = 0, ..., Sunday = 6. -/
def weekday (d : Nat) : Nat := d % 7

/-- Line 37 of `app.py`: `is_weekend = current_date.weekday() >= 5`. -/
def is_weekend (d : Nat) : Bool := decide (5 ≤ weekday d)

/-- Line 38 of `app.py`: `is_holiday = jpholiday.is_holiday(current_date)`,
with the holiday dataset abstracted as the list `hs`. -/
def is_holiday (hs : List Nat) (d : Nat) : Bool := hs.contains d

/-- Line 39 of `app.py` tests `if not is_weekend and not is_holiday`; a date
passing that test is a working day. -/
def isWorkingDay (hs : List Nat) (d : Nat) : Bool :=
  !is_weekend d && !is_holiday hs d

/-- The spec's Calendar Oracle `isNonWorkingDay`: the negation of the
working-day test of lines 37-39 of `app.py`. -/
def isNonWorkingDay (hs : List Nat) (d : Nat) : Bool :=
  is_weekend d || is_holiday hs d

/-- One-for-one embedding of the `while added_days < days_to_add` loop of
`add_business_days` (lines 35-40 of `app.py`): each recursive step advances
`current` by one calendar day and increments `added` exactly when the new day
is a working day.  The `fuel` argument only makes the recursion structural;
`addLoop_fuel_irrel` below shows the result does not depend on it once it is
large enough for the loop to exit through its `added_days < days_to_add`
test, so the Python loop (which has no fuel) is faithfully represented. -/
def addLoop (hs : List Nat) : Nat → Nat → Nat → Nat → Nat
  | 0, current, _, _ => current
  | fuel + 1, current, added, target =>
    if added < target then
      if isWorkingDay hs (current + 1) then
        addLoop hs fuel (current + 1) (added + 1) target
      else
        addLoop hs fuel (current + 1) added target
    else current

/-- Largest entry of the holiday dataset. -/
def listMax (hs : List Nat) : Nat := hs.foldr max 0

/-- A date that is a Monday and lies strictly beyond both `c` and every
holiday of `hs`. -/
def weekBound (hs : List Nat) (c : Nat) : Nat :=
  7 * (max c (listMax hs) / 7 + 1)

/-- Fuel that provably suffices for `addLoop` started at `c` to collect
`target` working days. -/
def fuelFor (hs : List Nat) (c target : Nat) : Nat :=
  (weekBound hs c - c) + 7 * target

/-- Lines 31-41 of `app.py`: `add_business_days(start_date, days_to_add)`. -/
def add_business_days (hs : List Nat) (start_date days_to_add : Nat) : Nat :=
  addLoop hs (fuelFor hs start_date days_to_add) start_date 0 days_to_add

/-- Number of working days in the window `(a, a + len]` (strictly after `a`,
up to and including `a + len`). -/
def countWorking (hs : List Nat) (a : Nat) : Nat → Nat
  | 0 => 0
  | len + 1 =>
    countWorking hs a len + (if isWorkingDay hs (a + len + 1) then 1 else 0)

/-- Total number of iterations the while loop of `add_business_days`
performs: each iteration advances `current_date` by exactly one day, so the
iteration count equals the returned date minus the start date. -/
def loopIterations (hs : List Nat) (start_date days_to_add : Nat) : Nat :=
  add_business_days hs start_date days_to_add - start_date

/-- A plan entry of `PSA_JAPAN_PLANS`: `{"business_days": ..., "price": ...}`. -/
structure PlanInfo where
  business_days : Nat
  price : Int
deriving DecidableEq

/-- Lines 14-19 of `app.py`: the `PSA_JAPAN_PLANS` dict. -/
def PSA_JAPAN_PLANS : List (String × PlanInfo) :=
  [("Value", ⟨45, 3980⟩), ("ValuePlus", ⟨20, 6980⟩),
   ("Regular", ⟨10, 9980⟩), ("Express", ⟨10, 16980⟩)]

/-- Python dict lookup `PSA_JAPAN_PLANS[plan_name]`; `none` exactly when
`plan_name not in PSA_JAPAN_PLANS`. -/
def planLookup (plan_name : String) : Option PlanInfo :=
  (PSA_JAPAN_PLANS.find? fun p => p.1 == plan_name).map fun p => p.2

/-- Result of `calculate_psa`: `{"cost": ..., "return_date": ...}`, with
`none` standing for Python's `None`. -/
structure Quote where
  cost : Int
  return_date : Option Nat
deriving DecidableEq

/-- Lines 43-52 of `app.py`: `calculate_psa(arrival_date, plan_name)`.
`datetime.timedelta(weeks=3)` is 21 calendar days. -/
def calculate_psa (hs : List Nat) (arrival_date : Nat) (plan_name : String) :
    Quote :=
  match planLookup plan_name with
  | none => ⟨0, none⟩
  | some plan =>
    let processing_start := arrival_date + 21
    let return_date := add_business_days hs processing_start plan.business_days
    ⟨plan.price, some return_date⟩

/-! Basic lemmas about the loop and the working-day count. -/

lemma addLoop_done (hs : List Nat) (fuel c t : Nat) :
    addLoop hs fuel c t t = c := by
  cases fuel <;> simp [addLoop]

lemma countWorking_add (hs : List Nat) (a x : Nat) :
    ∀ y, countWorking hs a (x + y) =
      countWorking hs a x + countWorking hs (a + x) y := by
  intro y
  induction y with
  | zero => simp [countWorking]
  | succ y ih =>
    have harg : a + (x + y) + 1 = a + x + y + 1 := by omega
    show countWorking hs a (x + y + 1) = _
    simp only [countWorking, ih, harg]
    omega

lemma countWorking_le (hs : List Nat) (a : Nat) :
    ∀ len, countWorking hs a len ≤ len := by
  intro len
  induction len with
  | zero => simp [countWorking]
  | succ len ih =>
    simp only [countWorking]
    split <;> omega

lemma countWorking_last_pos (hs : List Nat) (a len : Nat)
    (h1 : 1 ≤ len) (h2 : isWorkingDay hs (a + len) = true) :
    1 ≤ countWorking hs a len := by
  cases len with
  | zero => omega
  | succ k =>
    simp only [countWorking]
    have : a + (k + 1) = a + k + 1 := by omega
    rw [this] at h2
    rw [h2]
    simp

lemma le_listMax (hs : List Nat) : ∀ h ∈ hs, h ≤ listMax hs := by
  induction hs with
  | nil => intro h hh; exact absurd hh (List.not_mem_nil h)
  | cons x t ih =>
    intro h hh
    rcases List.mem_cons.mp hh with rfl | hm
    · exact le_max_left _ _
    · exact le_trans (ih h hm) (le_max_right _ _)

lemma is_holiday_big (hs : List Nat) (d : Nat) (h : listMax hs < d) :
    is_holiday hs d = false := by
  by_contra hc
  have hc' : is_holiday hs d = true := by
    revert hc; cases is_holiday hs d <;> simp
  have hmem : d ∈ hs := by
    simpa [is_holiday] using hc'
  exact absurd (le_listMax hs d hmem) (by omega)

lemma lt_weekBound (hs : List Nat) (c : Nat) : c < weekBound hs c := by
  have h1 : c ≤ max c (listMax hs) := le_max_left _ _
  unfold weekBound
  generalize max c (listMax hs) = m at h1
  omega

lemma listMax_lt_weekBound (hs : List Nat) (c : Nat) :
    listMax hs < weekBound hs c := by
  have h1 : listMax hs ≤ max c (listMax hs) := le_max_right _ _
  unfold weekBound
  generalize max c (listMax hs) = m at h1
  omega

lemma weekBound_mod (hs : List Nat) (c : Nat) : weekBound hs c % 7 = 0 := by
  unfold weekBound
  omega

lemma isWorkingDay_of_big (hs : List Nat) (d : Nat)
    (h1 : d % 7 < 5) (h2 : listMax hs < d) : isWorkingDay hs d = true := by
  unfold isWorkingDay is_weekend weekday
  rw [is_holiday_big hs d h2]
  simp
  omega

lemma countWorking_weeks (hs : List Nat) :
    ∀ t W, W % 7 = 0 → listMax hs < W → t ≤ countWorking hs W (7 * t) := by
  intro t
  induction t with
  | zero => intro W _ _; simp
  | succ t ih =>
    intro W hW hmax
    have hsplit : countWorking hs W (7 + 7 * t) =
        countWorking hs W 7 + countWorking hs (W + 7) (7 * t) :=
      countWorking_add hs W 7 (7 * t)
    have h1 : 1 ≤ countWorking hs W 7 := by
      apply countWorking_last_pos hs W 7 (by omega)
      exact isWorkingDay_of_big hs (W + 7) (by omega) (by omega)
    have h2 := ih (W + 7) (by omega) (by omega)
    have harg : 7 * (t + 1) = 7 + 7 * t := by omega
    rw [harg, hsplit]
    omega

lemma fuel_sufficient (hs : List Nat) (c t : Nat) :
    t ≤ countWorking hs c (fuelFor hs c t) := by
  have hcw : c < weekBound hs c := lt_weekBound hs c
  have hsplit : countWorking hs c ((weekBound hs c - c) + 7 * t) =
      countWorking hs c (weekBound hs c - c) +
        countWorking hs (c + (weekBound hs c - c)) (7 * t) :=
    countWorking_add hs c (weekBound hs c - c) (7 * t)
  have harg : c + (weekBound hs c - c) = weekBound hs c := by omega
  rw [harg] at hsplit
  have hw := countWorking_weeks hs t (weekBound hs c) (weekBound_mod hs c)
    (listMax_lt_weekBound hs c)
  unfold fuelFor
  omega

/-- Invariant of the while loop: with enough fuel the loop exits through its
`added_days < days_to_add` test, the returned date is at or after `current`,
the window strictly after `current` up to and including the returned date
holds exactly the remaining number of working days, and (when at least one
day remains to add) the returned date is itself a working day. -/
lemma addLoop_spec (hs : List Nat) (fuel : Nat) :
    ∀ current added target, added ≤ target →
      target - added ≤ countWorking hs current fuel →
      current ≤ addLoop hs fuel current added target ∧
      countWorking hs current (addLoop hs fuel current added target - current)
        = target - added ∧
      (added < target →
        isWorkingDay hs (addLoop hs fuel current added target) = true) := by
  induction fuel with
  | zero =>
    intro c a t h1 h2
    simp only [countWorking] at h2
    have ht : t = a := by omega
    subst ht
    simp [addLoop, countWorking]
  | succ f ih =>
    intro c a t h1 h2
    by_cases hat : a < t
    · have hhead : countWorking hs c (f + 1) =
          countWorking hs c 1 + countWorking hs (c + 1) f := by
        rw [Nat.add_comm f 1]
        exact countWorking_add hs c 1 f
      by_cases hw : isWorkingDay hs (c + 1) = true
      · have hone : countWorking hs c 1 = 1 := by
          simp [countWorking, hw]
        have h2' : t - (a + 1) ≤ countWorking hs (c + 1) f := by
          rw [hhead, hone] at h2; omega
        obtain ⟨ih1, ih2, ih3⟩ := ih (c + 1) (a + 1) t (by omega) h2'
        have hstep : addLoop hs (f + 1) c a t =
            addLoop hs f (c + 1) (a + 1) t := by
          simp [addLoop, hat, hw]
        rw [hstep]
        refine ⟨by omega, ?_, ?_⟩
        · have hr : addLoop hs f (c + 1) (a + 1) t - c =
              1 + (addLoop hs f (c + 1) (a + 1) t - (c + 1)) := by omega
          rw [hr, countWorking_add hs c 1 _, hone, ih2]
          omega
        · intro _
          by_cases hat2 : a + 1 < t
          · exact ih3 hat2
          · have ht : t = a + 1 := by omega
            subst ht
            rw [addLoop_done]
            exact hw
      · have hw' : isWorkingDay hs (c + 1) = false := by
          revert hw; cases isWorkingDay hs (c + 1) <;> simp
        have hone : countWorking hs c 1 = 0 := by
          simp [countWorking, hw']
        have h2' : t - a ≤ countWorking hs (c + 1) f := by
          rw [hhead, hone] at h2; omega
        obtain ⟨ih1, ih2, ih3⟩ := ih (c + 1) a t h1 h2'
        have hstep : addLoop hs (f + 1) c a t =
            addLoop hs f (c + 1) a t := by
          simp [addLoop, hat, hw']
        rw [hstep]
        refine ⟨by omega, ?_, fun _ => ih3 hat⟩
        have hr : addLoop hs f (c + 1) a t - c =
            1 + (addLoop hs f (c + 1) a t - (c + 1)) := by omega
        rw [hr, countWorking_add hs c 1 _, hone, ih2]
        omega
    · have hstep : addLoop hs (f + 1) c a t = c := by
        simp [addLoop, hat]
      rw [hstep]
      refine ⟨le_refl _, ?_, fun h => absurd h hat⟩
      simp [countWorking]
      omega

lemma addLoop_le (hs : List Nat) (fuel : Nat) :
    ∀ current added target,
      addLoop hs fuel current added target ≤ current + fuel := by
  induction fuel with
  | zero => intro c a t; simp [addLoop]
  | succ f ih =>
    intro c a t
    by_cases hat : a < t
    · by_cases hw : isWorkingDay hs (c + 1) = true
      · have := ih (c + 1) (a + 1) t
        simp only [addLoop, hat, hw]
        simp only [if_true]
        omega
      · have hw' : isWorkingDay hs (c + 1) = false := by
          revert hw; cases isWorkingDay hs (c + 1) <;> simp
        have := ih (c + 1) a t
        simp only [addLoop, hat, hw', if_true, Bool.false_eq_true, if_false]
        omega
    · simp only [addLoop, hat, if_false]
      omega

/-- Once the fuel is large enough for the loop to exit through its own
stopping test, adding more fuel does not change the result: the Python
`while` loop terminates with this very value. -/
lemma addLoop_fuel_irrel (hs : List Nat) (fuel : Nat) :
    ∀ current added target g, added ≤ target →
      target - added ≤ countWorking hs current fuel → fuel ≤ g →
      addLoop hs g current added target =
        addLoop hs fuel current added target := by
  induction fuel with
  | zero =>
    intro c a t g h1 h2 _
    simp only [countWorking] at h2
    have ht : t = a := by omega
    subst ht
    rw [addLoop_done, addLoop_done]
  | succ f ih =>
    intro c a t g h1 h2 hg
    obtain ⟨g', rfl⟩ : ∃ g', g = g' + 1 := ⟨g - 1, by omega⟩
    have hhead : countWorking hs c (f + 1) =
        countWorking hs c 1 + countWorking hs (c + 1) f := by
      rw [Nat.add_comm f 1]
      exact countWorking_add hs c 1 f
    by_cases hat : a < t
    · by_cases hw : isWorkingDay hs (c + 1) = true
      · have hone : countWorking hs c 1 = 1 := by
          simp [countWorking, hw]
        have h2' : t - (a + 1) ≤ countWorking hs (c + 1) f := by
          rw [hhead, hone] at h2; omega
        have e1 : addLoop hs (g' + 1) c a t =
            addLoop hs g' (c + 1) (a + 1) t := by
          simp [addLoop, hat, hw]
        have e2 : addLoop hs (f + 1) c a t =
            addLoop hs f (c + 1) (a + 1) t := by
          simp [addLoop, hat, hw]
        rw [e1, e2]
        exact ih (c + 1) (a + 1) t g' (by omega) h2' (by omega)
      · have hw' : isWorkingDay hs (c + 1) = false := by
          revert hw; cases isWorkingDay hs (c + 1) <;> simp
        have hone : countWorking hs c 1 = 0 := by
          simp [countWorking, hw']
        have h2' : t - a ≤ countWorking hs (c + 1) f := by
          rw [hhead, hone] at h2; omega
        have e1 : addLoop hs (g' + 1) c a t =
            addLoop hs g' (c + 1) a t := by
          simp [addLoop, hat, hw']
        have e2 : addLoop hs (f + 1) c a t =
            addLoop hs f (c + 1) a t := by
          simp [addLoop, hat, hw']
        rw [e1, e2]
        exact ih (c + 1) a t g' h1 h2' (by omega)
    · have e1 : addLoop hs (g' + 1) c a t = c := by
        simp [addLoop, hat]
      have e2 : addLoop hs (f + 1) c a t = c := by
        simp [addLoop, hat]
      rw [e1, e2]

/-- Correctness of `add_business_days`: the result is at or after the start,
the window strictly after the start up to and including the result holds
exactly `n` working days, and for `n ≥ 1` the result is a working day. -/
lemma add_business_days_spec (hs : List Nat) (s n : Nat) :
    s ≤ add_business_days hs s n ∧
    countWorking hs s (add_business_days hs s n - s) = n ∧
    (1 ≤ n → isWorkingDay hs (add_business_days hs s n) = true) := by
  have h := addLoop_spec hs (fuelFor hs s n) s 0 n (Nat.zero_le n)
    (by simpa using fuel_sufficient hs s n)
  simpa [add_business_days] using h

lemma add_bd_zero (hs : List Nat) (s : Nat) : add_business_days hs s 0 = s :=
  addLoop_done hs (fuelFor hs s 0) s 0

lemma add_bd_gt (hs : List Nat) (s n : Nat) (h : 1 ≤ n) :
    s < add_business_days hs s n := by
  obtain ⟨h1, h2, _⟩ := add_business_days_spec hs s n
  rcases Nat.lt_or_ge s (add_business_days hs s n) with hlt | hge
  · exact hlt
  · have he : add_business_days hs s n = s := by omega
    rw [he] at h2
    simp [countWorking] at h2
    omega

/-- Uniqueness: any date at or after `s` whose window holds exactly `n`
working days, which is itself working when `n ≥ 1` and equals `s` when
`n = 0`, is the date `add_business_days` returns. -/
lemma add_bd_unique (hs : List Nat) (s n r : Nat)
    (h1 : s ≤ r) (h2 : countWorking hs s (r - s) = n)
    (h3 : 1 ≤ n → isWorkingDay hs r = true) (h4 : n = 0 → r = s) :
    r = add_business_days hs s n := by
  obtain ⟨g1, g2, g3⟩ := add_business_days_spec hs s n
  by_cases hn : n = 0
  · rw [h4 hn, hn, add_bd_zero]
  · have hn1 : 1 ≤ n := by omega
    by_contra hne
    rcases Nat.lt_or_ge r (add_business_days hs s n) with hlt | hge
    · have hsplit : countWorking hs s (add_business_days hs s n - s) =
          countWorking hs s (r - s) +
            countWorking hs r (add_business_days hs s n - r) := by
        have hadd := countWorking_add hs s (r - s)
          (add_business_days hs s n - r)
        have e1 : (r - s) + (add_business_days hs s n - r) =
            add_business_days hs s n - s := by omega
        have e2 : s + (r - s) = r := by omega
        rw [e1, e2] at hadd
        exact hadd
      have hpos : 1 ≤ countWorking hs r (add_business_days hs s n - r) := by
        apply countWorking_last_pos hs r _ (by omega)
        have e3 : r + (add_business_days hs s n - r) =
            add_business_days hs s n := by omega
        rw [e3]
        exact g3 hn1
      omega
    · have hlt : add_business_days hs s n < r := by omega
      have hsplit : countWorking hs s (r - s) =
          countWorking hs s (add_business_days hs s n - s) +
            countWorking hs (add_business_days hs s n)
              (r - add_business_days hs s n) := by
        have hadd := countWorking_add hs s (add_business_days hs s n - s)
          (r - add_business_days hs s n)
        have e1 : (add_business_days hs s n - s) +
            (r - add_business_days hs s n) = r - s := by omega
        have e2 : s + (add_business_days hs s n - s) =
            add_business_days hs s n := by omega
        rw [e1, e2] at hadd
        exact hadd
      have hpos : 1 ≤ countWorking hs (add_business_days hs s n)
          (r - add_business_days hs s n) := by
        apply countWorking_last_pos hs _ _ (by omega)
        have e3 : add_business_days hs s n +
            (r - add_business_days hs s n) = r := by omega
        rw [e3]
        exact h3 hn1
      omega

lemma plan_business_days_pos {name : String} {plan : PlanInfo}
    (h : planLookup name = some plan) : 1 ≤ plan.business_days := by
  simp only [planLookup, Option.map_eq_some'] at h
  obtain ⟨q, hq, hq2⟩ := h
  have hm : q ∈ PSA_JAPAN_PLANS := List.mem_of_find?_eq_some hq
  rw [← hq2]
  simp only [PSA_JAPAN_PLANS, List.mem_cons, List.not_mem_nil, or_false]
    at hm
  rcases hm with rfl | rfl | rfl | rfl <;> decide

/-! Claim theorems. -/

/-- C1: for every arrival date `D` and every plan name recognized in the
plan table, the quoted return date is strictly after `D + 21` calendar days,
the number of non-weekend non-holiday days strictly after `D + 21` up to and
including the return date equals the plan's required business days, and the
return date equals `add_business_days (D + 21) requiredBusinessDays`. -/
theorem calculate_psa_return_date_correct (hs : List Nat) (D : Nat)
    (name : String) (plan : PlanInfo) (h : planLookup name = some plan) :
    ∃ r, (calculate_psa hs D name).return_date = some r ∧
      D + 21 < r ∧
      countWorking hs (D + 21) (r - (D + 21)) = plan.business_days ∧
      r = add_business_days hs (D + 21) plan.business_days := by
  refine ⟨add_business_days hs (D + 21) plan.business_days, ?_, ?_, ?_, rfl⟩
  · simp [calculate_psa, h]
  · exact add_bd_gt hs (D + 21) plan.business_days (plan_business_days_pos h)
  · exact (add_business_days_spec hs (D + 21) plan.business_days).2.1

/-- C1 witness: the "Regular" plan (10 business days) with arrival date 0
and an empty holiday dataset. -/
theorem calculate_psa_return_date_correct_witness :
    ∃ r, (calculate_psa [] 0 "Regular").return_date = some r ∧
      0 + 21 < r ∧
      countWorking [] (0 + 21) (r - (0 + 21)) =
        (PlanInfo.mk 10 9980).business_days ∧
      r = add_business_days [] (0 + 21) (PlanInfo.mk 10 9980).business_days :=
  calculate_psa_return_date_correct [] 0 "Regular" ⟨10, 9980⟩ (by decide)

/-- C2: for every plan name that is not a key of the plan table,
`calculate_psa` returns exactly the sentinel `{cost: 0, return_date: None}`
(it is a total function, so no exception is raised). -/
theorem calculate_psa_unknown_plan (hs : List Nat) (D : Nat) (name : String)
    (h : planLookup name = none) :
    calculate_psa hs D name = ⟨0, none⟩ := by
  simp [calculate_psa, h]

/-- C2 witness: the concrete unrecognized plan name of the spec scenario. -/
theorem calculate_psa_unknown_plan_witness :
    calculate_psa [] 0 "NotARealPlan" = ⟨0, none⟩ :=
  calculate_psa_unknown_plan [] 0 "NotARealPlan" (by decide)

/-- C3: the Calendar Oracle classifies a date as non-working exactly when
its day-of-week is Saturday (5) or Sunday (6), or the date is in the
configured holiday dataset. -/
theorem isNonWorkingDay_weekend_or_holiday (hs : List Nat) (d : Nat) :
    isNonWorkingDay hs d =
      ((d % 7 == 5) || (d % 7 == 6) || hs.contains d) := by
  have key : decide (5 ≤ d % 7) = ((d % 7 == 5) || (d % 7 == 6)) := by
    have h7 : d % 7 < 7 := Nat.mod_lt d (by norm_num)
    revert h7
    generalize d % 7 = m
    intro h7
    interval_cases m <;> rfl
  unfold isNonWorkingDay is_weekend is_holiday weekday
  rw [key, Bool.or_assoc]

/-- C4 counterexample: starting on a Friday (day 4) with one business day to
add, the loop iterates three times (Saturday, Sunday, Monday), more than the
required business-day count of 1, so the iteration count is not bounded by
`requiredBusinessDays`. -/
theorem add_business_days_iterations_exceed_target :
    ¬ (loopIterations [] 4 1 ≤ 1) := by decide

/-- C4 amended: for every start date and non-negative `days_to_add` the loop
terminates — with fuel at least `fuelFor` the result is the stable value of
the unbounded while loop — exactly `days_to_add` of its iterations increment
the business-day counter, and the total number of iterations lies between
`days_to_add` and `fuelFor hs s n = (weekBound hs s - s) + 7 * days_to_add`,
a linear bound in `days_to_add`, rather than `days_to_add` itself. -/
theorem add_business_days_terminates_bounded (hs : List Nat) (s n : Nat) :
    n ≤ loopIterations hs s n ∧
    loopIterations hs s n ≤ fuelFor hs s n ∧
    countWorking hs s (loopIterations hs s n) = n ∧
    ∀ g, fuelFor hs s n ≤ g →
      addLoop hs g s 0 n = add_business_days hs s n := by
  obtain ⟨h1, h2, _⟩ := add_business_days_spec hs s n
  refine ⟨?_, ?_, h2, ?_⟩
  · have hle := countWorking_le hs s (add_business_days hs s n - s)
    unfold loopIterations
    omega
  · have hle : add_business_days hs s n ≤ s + fuelFor hs s n :=
      addLoop_le hs (fuelFor hs s n) s 0 n
    unfold loopIterations
    omega
  · intro g hg
    exact addLoop_fuel_irrel hs (fuelFor hs s n) s 0 n g (Nat.zero_le n)
      (by simpa using fuel_sufficient hs s n) hg

/-- C4 witness: the bounds and stabilization at a concrete instance. -/
theorem add_business_days_terminates_bounded_witness :
    1 ≤ loopIterations [] 0 1 ∧
    loopIterations [] 0 1 ≤ fuelFor [] 0 1 ∧
    countWorking [] 0 (loopIterations [] 0 1) = 1 ∧
    addLoop [] 99 0 0 1 = add_business_days [] 0 1 :=
  ⟨(add_business_days_terminates_bounded [] 0 1).1,
   (add_business_days_terminates_bounded [] 0 1).2.1,
   (add_business_days_terminates_bounded [] 0 1).2.2.1,
   (add_business_days_terminates_bounded [] 0 1).2.2.2 99 (by decide)⟩

/-- C5: `add_business_days` with `days_to_add = 0` returns the start date
unchanged without advancing, so a hypothetical plan with
`requiredBusinessDays = 0` would get `return_date = processing_start`. -/
theorem add_business_days_zero (hs : List Nat) (s : Nat) :
    add_business_days hs s 0 = s :=
  add_bd_zero hs s

/-- C6: for every recognized plan name, the quoted cost equals exactly the
price configured for that plan in the plan table. -/
theorem calculate_psa_cost_eq_price (hs : List Nat) (D : Nat) (name : String)
    (plan : PlanInfo) (h : planLookup name = some plan) :
    (calculate_psa hs D name).cost = plan.price := by
  simp [calculate_psa, h]

/-- C6 witness: the "Regular" plan costs exactly 9980. -/
theorem calculate_psa_cost_eq_price_witness :
    (calculate_psa [] 0 "Regular").cost = (PlanInfo.mk 10 9980).price :=
  calculate_psa_cost_eq_price [] 0 "Regular" ⟨10, 9980⟩ (by decide)

/-- C7: the code has no failure path for missing holiday data.  With a
holiday dataset holding no entry for the queried year, a weekday (here day
2, a Wednesday) is silently classified as a working day, and `calculate_psa`
silently produces a quote; nothing raises a "holiday calendar unavailable"
condition, contradicting the spec's error-handling requirement. -/
theorem missing_holiday_data_silent :
    isNonWorkingDay [] 2 = false ∧
    (calculate_psa [] 0 "Regular").return_date = some 35 := by decide

/-- C8: the plan table consists of exactly the four configured entries, and
every entry has `requiredBusinessDays ≥ 1` and `price ≥ 0`. -/
theorem psa_japan_plans_table :
    PSA_JAPAN_PLANS =
      [("Value", ⟨45, 3980⟩), ("ValuePlus", ⟨20, 6980⟩),
       ("Regular", ⟨10, 9980⟩), ("Express", ⟨10, 16980⟩)] ∧
    ∀ e ∈ PSA_JAPAN_PLANS, 1 ≤ e.2.business_days ∧ 0 ≤ e.2.price :=
  ⟨rfl, by decide⟩

/-- C8 witness: the invariant at the "Value" entry. -/
theorem psa_japan_plans_table_witness :
    1 ≤ (("Value", PlanInfo.mk 45 3980) : String × PlanInfo).2.business_days ∧
    0 ≤ (("Value", PlanInfo.mk 45 3980) : String × PlanInfo).2.price :=
  psa_japan_plans_table.2 ("Value", PlanInfo.mk 45 3980) (by decide)

/-- C9: for `days_to_add ≥ 1` the date returned by `add_business_days` is
itself a working day: its day-of-week is not Saturday or Sunday, and it is
not in the holiday dataset. -/
theorem add_business_days_lands_on_working_day (hs : List Nat) (s n : Nat)
    (h : 1 ≤ n) :
    weekday (add_business_days hs s n) < 5 ∧
    is_holiday hs (add_business_days hs s n) = false := by
  have h3 := (add_business_days_spec hs s n).2.2 h
  unfold isWorkingDay at h3
  simp only [Bool.and_eq_true, Bool.not_eq_true'] at h3
  refine ⟨?_, h3.2⟩
  have hw := h3.1
  unfold is_weekend at hw
  simp only [decide_eq_false_iff_not, not_le] at hw
  exact hw

/-- C9 witness: one business day from day 0 (a Monday) lands on a working
day. -/
theorem add_business_days_lands_on_working_day_witness :
    weekday (add_business_days [] 0 1) < 5 ∧
    is_holiday [] (add_business_days [] 0 1) = false :=
  add_business_days_lands_on_working_day [] 0 1 (by decide)

/-- C10: advancing by `a` business days and then by `b` more reaches the
same date as advancing by `a + b` at once. -/
theorem add_business_days_additive (hs : List Nat) (s a b : Nat) :
    add_business_days hs s (a + b) =
      add_business_days hs (add_business_days hs s a) b := by
  obtain ⟨m1, m2, m3⟩ := add_business_days_spec hs s a
  obtain ⟨r1, r2, r3⟩ :=
    add_business_days_spec hs (add_business_days hs s a) b
  symm
  apply add_bd_unique hs s (a + b)
  · omega
  · have hadd := countWorking_add hs s (add_business_days hs s a - s)
      (add_business_days hs (add_business_days hs s a) b -
        add_business_days hs s a)
    have e1 : s + (add_business_days hs s a - s) =
        add_business_days hs s a := by omega
    have e2 : (add_business_days hs s a - s) +
        (add_business_days hs (add_business_days hs s a) b -
          add_business_days hs s a) =
        add_business_days hs (add_business_days hs s a) b - s := by omega
    rw [e1, e2] at hadd
    rw [hadd, m2, r2]
  · intro hab
    by_cases hb : 1 ≤ b
    · exact r3 hb
    · have hb0 : b = 0 := by omega
      have ha : 1 ≤ a := by omega
      rw [hb0, add_bd_zero]
      exact m3 ha
  · intro hab
    have ha0 : a = 0 := by omega
    have hb0 : b = 0 := by omega
    rw [ha0, hb0, add_bd_zero, add_bd_zero]
